import Mathlib

/-!
Verification of `DynamicProgrammingPractice/DynamicProgrammingPractice.cpp`.

The C++ `int` is modelled as `Int`: no computation performed by the program
overflows a 32-bit int (the largest value produced is fib(42) = 267914296),
so wrap-around is irrelevant and plain integers are a faithful model.

`std::array<int, N>` is modelled as a `List Int` of length `N`.  An array
access `memo[i]` is undefined behaviour in C++ when `i` is outside
`[0, N)`; the embedding makes every access explicit and returns `none`
(the out-of-bounds error branch) in that case.

The recursive functions are defined structurally over a fuel argument so
that they compute by kernel reduction; the wrappers supply fuel
`n.toNat + 1`, which is proved sufficient along every reachable path (the
fuel-exhaustion branch is unreachable, see the lemmas below).
-/

/-- The true Fibonacci numbers under the convention fib(1) = fib(2) = 1
(the specification's reference sequence; slot `n - 1` of a cache is meant
to hold `specFib n`). -/
def specFib (n : Nat) : Int := (Nat.fib n : Int)

/-- Embedding of the naive variant
`int fibonacci(int n) { if (n <= 2) return 1; return fibonacci(n-1) + fibonacci(n-2); }`,
structurally recursive over fuel. -/
def fibonacciF : Nat → Int → Int
  | 0, _ => 1
  | fuel + 1, n =>
    if n ≤ 2 then 1
    else fibonacciF fuel (n - 1) + fibonacciF fuel (n - 2)

/-- `fibonacci(int n)`: the fuel `n.toNat` is sufficient (the fuel-0 case is
reached only with `n ≤ 0`, where the source's `n <= 2` base case returns 1,
which is also what the fuel-0 case returns). -/
def fibonacci (n : Int) : Int := fibonacciF n.toNat n

/-- Number of recursive invocations made by the naive variant (each
evaluation of the final `return` line spawns two calls). -/
def fibonacciCallsF : Nat → Int → Nat
  | 0, _ => 0
  | fuel + 1, n =>
    if n ≤ 2 then 0
    else 2 + fibonacciCallsF fuel (n - 1) + fibonacciCallsF fuel (n - 2)

/-- Recursive-call count of `fibonacci(int n)`. -/
def fibonacciCalls (n : Int) : Nat := fibonacciCallsF n.toNat n

/-- Embedding of the memoized variant
```
template <std::size_t N> int fibonacci(int n, std::array<int, N>& memo) {
  if (memo[n - 1] > 0) { return memo[n - 1]; }
  if (n <= 2 && n > 0) { memo[n - 1] = 1; return 1; }
  memo[n - 1] = fibonacci(n - 1, memo) + fibonacci(n - 2, memo);
  return memo[n - 1];
}
```
The access `memo[n - 1]` performed by the first line is modelled by an
explicit bounds check on the index `n - 1`; if it is outside `[0, N)` the
out-of-bounds error branch `none` is taken.  The in-place mutation is
modelled by threading the list: the second recursive call receives the
cache produced by the first, the final write is `List.set`, and the
source's `return memo[n - 1]` re-reads the written slot. -/
def fibonacciMemoF : Nat → Int → List Int → Option (Int × List Int)
  | 0, _, _ => none
  | fuel + 1, n, memo =>
    if 0 ≤ n - 1 ∧ (n - 1).toNat < memo.length then
      if 0 < memo.getD (n - 1).toNat 0 then
        some (memo.getD (n - 1).toNat 0, memo)
      else if n ≤ 2 ∧ 0 < n then
        some (1, memo.set (n - 1).toNat 1)
      else
        Option.bind (fibonacciMemoF fuel (n - 1) memo) (fun r1 =>
          Option.bind (fibonacciMemoF fuel (n - 2) r1.2) (fun r2 =>
            let m3 := r2.2.set (n - 1).toNat (r1.1 + r2.1)
            if (n - 1).toNat < m3.length then some (m3.getD (n - 1).toNat 0, m3)
            else none))
    else none

/-- `fibonacci(int n, std::array<int, N>& memo)` (the memoized overload). -/
def fibonacciMemo (n : Int) (memo : List Int) : Option (Int × List Int) :=
  fibonacciMemoF (n.toNat + 1) n memo

/-- Embedding of the constexpr memoized variant `fibonacciC`; identical to
the memoized overload except that its base-case guard is `n <= 2` with no
`n > 0` conjunct. -/
def fibonacciCF : Nat → Int → List Int → Option (Int × List Int)
  | 0, _, _ => none
  | fuel + 1, n, memo =>
    if 0 ≤ n - 1 ∧ (n - 1).toNat < memo.length then
      if 0 < memo.getD (n - 1).toNat 0 then
        some (memo.getD (n - 1).toNat 0, memo)
      else if n ≤ 2 then
        some (1, memo.set (n - 1).toNat 1)
      else
        Option.bind (fibonacciCF fuel (n - 1) memo) (fun r1 =>
          Option.bind (fibonacciCF fuel (n - 2) r1.2) (fun r2 =>
            let m3 := r2.2.set (n - 1).toNat (r1.1 + r2.1)
            if (n - 1).toNat < m3.length then some (m3.getD (n - 1).toNat 0, m3)
            else none))
    else none

/-- `constexpr int fibonacciC(int n, std::array<int, N>& memo)`. -/
def fibonacciC (n : Int) (memo : List Int) : Option (Int × List Int) :=
  fibonacciCF (n.toNat + 1) n memo

/-- Observable events of one evaluation of a memoized variant, in source
statement order: the cache-hit read of `memo[n - 1]`, a return through the
hit branch, the evaluation of the base-case guard, the base-case write,
a recursive invocation, the recursive-case write, and an out-of-bounds
cache access. -/
inductive FibEvent where
  | oobRead (idx : Int)
  | hitRead (idx : Int)
  | hitReturn (idx : Int)
  | guardTest (n : Int)
  | baseWrite (idx : Int)
  | recCall (arg : Int)
  | recWrite (idx : Int)
  deriving DecidableEq

/-- The memoized variant instrumented with the events it performs, in the
order the source performs them: the hit read `memo[n - 1]` comes first; the
base-case guard `n <= 2 && n > 0` is evaluated only after the hit test
fails; the two recursive calls and the final write follow.  The value and
cache components coincide with `fibonacciMemoF`. -/
def fibonacciMemoTF : Nat → Int → List Int → Option (Int × List Int) × List FibEvent
  | 0, _, _ => (none, [])
  | fuel + 1, n, memo =>
    if 0 ≤ n - 1 ∧ (n - 1).toNat < memo.length then
      if 0 < memo.getD (n - 1).toNat 0 then
        (some (memo.getD (n - 1).toNat 0, memo),
          [FibEvent.hitRead (n - 1), FibEvent.hitReturn (n - 1)])
      else if n ≤ 2 ∧ 0 < n then
        (some (1, memo.set (n - 1).toNat 1),
          [FibEvent.hitRead (n - 1), FibEvent.guardTest n, FibEvent.baseWrite (n - 1)])
      else
        match fibonacciMemoTF fuel (n - 1) memo with
        | (none, t1) =>
          (none, FibEvent.hitRead (n - 1) :: FibEvent.guardTest n ::
            FibEvent.recCall (n - 1) :: t1)
        | (some r1, t1) =>
          match fibonacciMemoTF fuel (n - 2) r1.2 with
          | (none, t2) =>
            (none, FibEvent.hitRead (n - 1) :: FibEvent.guardTest n ::
              FibEvent.recCall (n - 1) :: (t1 ++ FibEvent.recCall (n - 2) :: t2))
          | (some r2, t2) =>
            let m3 := r2.2.set (n - 1).toNat (r1.1 + r2.1)
            if (n - 1).toNat < m3.length then
              (some (m3.getD (n - 1).toNat 0, m3),
                FibEvent.hitRead (n - 1) :: FibEvent.guardTest n ::
                  FibEvent.recCall (n - 1) ::
                    (t1 ++ FibEvent.recCall (n - 2) :: (t2 ++ [FibEvent.recWrite (n - 1)])))
            else
              (none, FibEvent.hitRead (n - 1) :: FibEvent.guardTest n ::
                FibEvent.recCall (n - 1) ::
                  (t1 ++ FibEvent.recCall (n - 2) :: (t2 ++ [FibEvent.oobRead (n - 1)])))
    else (none, [FibEvent.oobRead (n - 1)])

/-- Event-instrumented `fibonacci(int, std::array<int, N>&)`. -/
def fibonacciMemoTrace (n : Int) (memo : List Int) :
    Option (Int × List Int) × List FibEvent :=
  fibonacciMemoTF (n.toNat + 1) n memo

/-- The constexpr variant instrumented with events; identical to
`fibonacciMemoTF` except that the guard evaluated after a failed hit test
is `n <= 2`. -/
def fibonacciCTF : Nat → Int → List Int → Option (Int × List Int) × List FibEvent
  | 0, _, _ => (none, [])
  | fuel + 1, n, memo =>
    if 0 ≤ n - 1 ∧ (n - 1).toNat < memo.length then
      if 0 < memo.getD (n - 1).toNat 0 then
        (some (memo.getD (n - 1).toNat 0, memo),
          [FibEvent.hitRead (n - 1), FibEvent.hitReturn (n - 1)])
      else if n ≤ 2 then
        (some (1, memo.set (n - 1).toNat 1),
          [FibEvent.hitRead (n - 1), FibEvent.guardTest n, FibEvent.baseWrite (n - 1)])
      else
        match fibonacciCTF fuel (n - 1) memo with
        | (none, t1) =>
          (none, FibEvent.hitRead (n - 1) :: FibEvent.guardTest n ::
            FibEvent.recCall (n - 1) :: t1)
        | (some r1, t1) =>
          match fibonacciCTF fuel (n - 2) r1.2 with
          | (none, t2) =>
            (none, FibEvent.hitRead (n - 1) :: FibEvent.guardTest n ::
              FibEvent.recCall (n - 1) :: (t1 ++ FibEvent.recCall (n - 2) :: t2))
          | (some r2, t2) =>
            let m3 := r2.2.set (n - 1).toNat (r1.1 + r2.1)
            if (n - 1).toNat < m3.length then
              (some (m3.getD (n - 1).toNat 0, m3),
                FibEvent.hitRead (n - 1) :: FibEvent.guardTest n ::
                  FibEvent.recCall (n - 1) ::
                    (t1 ++ FibEvent.recCall (n - 2) :: (t2 ++ [FibEvent.recWrite (n - 1)])))
            else
              (none, FibEvent.hitRead (n - 1) :: FibEvent.guardTest n ::
                FibEvent.recCall (n - 1) ::
                  (t1 ++ FibEvent.recCall (n - 2) :: (t2 ++ [FibEvent.oobRead (n - 1)])))
    else (none, [FibEvent.oobRead (n - 1)])

/-- Event-instrumented `fibonacciC`. -/
def fibonacciCTrace (n : Int) (memo : List Int) :
    Option (Int × List Int) × List FibEvent :=
  fibonacciCTF (n.toNat + 1) n memo

/-- The driver's `constexpr int fibN = 42`. -/
def fibN : Int := 42

/-- The driver's `std::array<int, fibN> memoA`, which the aggregate
initializer fills with zeros. -/
def memoA0 : List Int := List.replicate 42 0

/-- The driver's `result1 = fibonacci(fibN)`. -/
def mainR1 : Int := fibonacci fibN

/-- The driver's call `fibonacci(fibN, memoA)` together with the state of
`memoA` after it. -/
def mainStep3 : Option (Int × List Int) := fibonacciMemo fibN memoA0

/-- The driver's `result3`. -/
def mainR3 : Int :=
  match mainStep3 with
  | some r => r.1
  | none => 0

/-- The state of `memoA` after the driver's second call (which the third
call reuses). -/
def mainMemo1 : List Int :=
  match mainStep3 with
  | some r => r.2
  | none => []

/-- The driver's call `fibonacciC(fibN, memoA)` on the reused cache. -/
def mainStep4 : Option (Int × List Int) := fibonacciC fibN mainMemo1

/-- The driver's `result4`. -/
def mainR4 : Int :=
  match mainStep4 with
  | some r => r.1
  | none => 0

/-- The driver's standard output, one list entry per newline-terminated
line (`std::endl << std::endl` after each `time` line produces a blank
line, also after the last block); `d1 d2 d3` are the three measured
durations in microseconds, which are not determined by the program. -/
def mainLines (d1 d2 d3 : Int) : Option (List String) :=
  Option.bind (fibonacciMemo fibN memoA0) (fun r3 =>
    Option.bind (fibonacciC fibN r3.2) (fun r4 =>
      some ["fibonacci(" ++ toString fibN ++ ") = " ++ toString mainR1,
            "time = " ++ toString d1 ++ " us", "",
            "fibonacci<array>(" ++ toString fibN ++ ") = " ++ toString r3.1,
            "time = " ++ toString d2 ++ " us", "",
            "fibonacci<array, constexpr>(" ++ toString fibN ++ ") = " ++ toString r4.1,
            "time = " ++ toString d3 ++ " us", ""]))

/-- The indices that participate in the recurrence chain for `n`: `n`
itself together with, when the recursive branch applies (`n ≥ 3`), the
chains of `n - 1` and `n - 2`.  (Modelled from the spec's phrase "every
slot index < n that participates in the recurrence chain".) -/
def recChain : Nat → List Nat
  | 0 => [0]
  | 1 => [1]
  | 2 => [2]
  | n + 3 => (n + 3) :: (recChain (n + 2) ++ recChain (n + 1))

/-- A cache is consistent when every slot is non-negative and every
positive (filled) slot `i` holds the true Fibonacci number `specFib (i+1)`. -/
def CacheConsistent (m : List Int) : Prop :=
  ∀ i : Nat, 0 ≤ m.getD i 0 ∧ (0 < m.getD i 0 → m.getD i 0 = specFib (i + 1))

/-- Cache states reachable from an all-zero cache by any sequence of
memoized calls (either variant) with valid indices `1 ≤ n ≤ capacity`. -/
inductive CacheReachable : List Int → Prop where
  | init (cap : Nat) : CacheReachable (List.replicate cap 0)
  | stepMemo (n : Int) (m m' : List Int) (v : Int) (hm : CacheReachable m)
      (h1 : 1 ≤ n) (h2 : n ≤ (m.length : Int))
      (hc : fibonacciMemo n m = some (v, m')) : CacheReachable m'
  | stepC (n : Int) (m m' : List Int) (v : Int) (hm : CacheReachable m)
      (h1 : 1 ≤ n) (h2 : n ≤ (m.length : Int))
      (hc : fibonacciC n m = some (v, m')) : CacheReachable m'

theorem getD_set (l : List Int) (i j : Nat) (a : Int) :
    (l.set i a).getD j 0 = if i = j ∧ j < l.length then a else l.getD j 0 := by
  simp only [List.getD_eq_getElem?_getD]
  rw [List.getElem?_set]
  rcases eq_or_ne i j with rfl | h
  · by_cases hl : i < l.length
    · rw [if_pos rfl, if_pos hl, if_pos ⟨rfl, hl⟩]
      rfl
    · rw [if_pos rfl, if_neg hl, if_neg (fun hc : i = i ∧ i < l.length => hl hc.2),
        List.getElem?_eq_none (by omega)]
  · rw [if_neg h, if_neg (fun hc : i = j ∧ j < l.length => h hc.1)]

theorem getD_replicate0 (k j : Nat) : (List.replicate k (0 : Int)).getD j 0 = 0 := by
  simp only [List.getD_eq_getElem?_getD, List.getElem?_replicate]
  split <;> simp

theorem specFib_nonneg (k : Nat) : 0 ≤ specFib k := Int.natCast_nonneg _

theorem specFib_pos (k : Nat) (h : 1 ≤ k) : 0 < specFib k := by
  simp only [specFib]
  exact_mod_cast Nat.fib_pos.mpr h

theorem specFib_add_two (k : Nat) : specFib (k + 2) = specFib (k + 1) + specFib k := by
  simp only [specFib, Nat.fib_add_two]
  push_cast
  ring

theorem cacheConsistent_replicate (cap : Nat) :
    CacheConsistent (List.replicate cap 0) := by
  intro i
  rw [getD_replicate0]
  exact ⟨le_refl 0, fun h => absurd h (by omega)⟩

/-- Main correctness of the memoized recursion: on any consistent cache and
valid index, the call succeeds with the true Fibonacci value, keeps the
cache length, preserves consistency and every already-filled slot, and
leaves slot `n - 1` filled. -/
theorem memoF_correct : ∀ (fuel : Nat) (n : Int) (m : List Int),
    n.toNat < fuel → CacheConsistent m → 1 ≤ n → n ≤ (m.length : Int) →
    ∃ m', fibonacciMemoF fuel n m = some (specFib n.toNat, m') ∧
      m'.length = m.length ∧ CacheConsistent m' ∧
      (∀ j : Nat, 0 < m.getD j 0 → m'.getD j 0 = m.getD j 0) ∧
      0 < m'.getD (n.toNat - 1) 0 := by
  intro fuel
  induction fuel with
  | zero => intro n m h _ h1 _; omega
  | succ f ih =>
    intro n m hf hm h1 h2
    have hidx : 0 ≤ n - 1 ∧ (n - 1).toNat < m.length := by omega
    rw [fibonacciMemoF, if_pos hidx]
    by_cases hv : 0 < m.getD (n - 1).toNat 0
    · rw [if_pos hv]
      have hval : m.getD (n - 1).toNat 0 = specFib ((n - 1).toNat + 1) :=
        (hm (n - 1).toNat).2 hv
      have harg : (n - 1).toNat + 1 = n.toNat := by omega
      refine ⟨m, ?_, rfl, hm, fun j _ => rfl, ?_⟩
      · rw [hval, harg]
      · have : n.toNat - 1 = (n - 1).toNat := by omega
        rw [this]
        exact hv
    · rw [if_neg hv]
      by_cases hb : n ≤ 2 ∧ 0 < n
      · rw [if_pos hb]
        have ht : n.toNat = 1 ∨ n.toNat = 2 := by omega
        have hfib : specFib n.toNat = 1 := by
          rcases ht with h | h <;> rw [h] <;> decide
        refine ⟨m.set (n - 1).toNat 1, by rw [hfib], List.length_set .., ?_, ?_, ?_⟩
        · intro j
          rw [getD_set]
          by_cases hij : (n - 1).toNat = j ∧ j < m.length
          · rw [if_pos hij]
            refine ⟨by omega, fun _ => ?_⟩
            have : j + 1 = n.toNat := by omega
            rw [this, hfib]
          · rw [if_neg hij]
            exact hm j
        · intro j hj
          rw [getD_set]
          rw [if_neg ?_]
          intro hc
          rcases hc with ⟨hij, _⟩
          rw [hij] at hv
          exact hv hj
        · rw [getD_set, if_pos (by omega)]
          omega
      · rw [if_neg hb]
        have h3 : 3 ≤ n := by omega
        obtain ⟨m1, e1, len1, hm1, fr1, pos1⟩ :=
          ih (n - 1) m (by omega) hm (by omega) (by omega)
        rw [e1, Option.some_bind]
        obtain ⟨m2, e2, len2, hm2, fr2, pos2⟩ :=
          ih (n - 2) m1 (by omega) hm1 (by omega) (by omega)
        simp only
        rw [e2, Option.some_bind]
        simp only
        have hlen3 : (n - 1).toNat < (m2.set (n - 1).toNat
            (specFib (n - 1).toNat + specFib (n - 2).toNat)).length := by
          rw [List.length_set]
          omega
        rw [if_pos hlen3]
        have hsum : specFib (n - 1).toNat + specFib (n - 2).toNat = specFib n.toNat := by
          obtain ⟨k, hk⟩ : ∃ k, n.toNat = k + 2 := ⟨n.toNat - 2, by omega⟩
          have a1 : (n - 1).toNat = k + 1 := by omega
          have a2 : (n - 2).toNat = k := by omega
          rw [a1, a2, hk, specFib_add_two]
        have hread : (m2.set (n - 1).toNat
            (specFib (n - 1).toNat + specFib (n - 2).toNat)).getD (n - 1).toNat 0 =
            specFib (n - 1).toNat + specFib (n - 2).toNat := by
          rw [getD_set, if_pos ⟨rfl, by omega⟩]
        refine ⟨m2.set (n - 1).toNat (specFib (n - 1).toNat + specFib (n - 2).toNat),
          by rw [hread, hsum], by rw [List.length_set]; omega, ?_, ?_, ?_⟩
        · intro j
          rw [getD_set]
          by_cases hij : (n - 1).toNat = j ∧ j < m2.length
          · rw [if_pos hij]
            refine ⟨by rw [hsum]; exact specFib_nonneg _, fun _ => ?_⟩
            have : j + 1 = n.toNat := by omega
            rw [this, hsum]
          · rw [if_neg hij]
            exact hm2 j
        · intro j hj
          have f1 := fr1 j hj
          have hj1 : 0 < m1.getD j 0 := by rw [f1]; exact hj
          have f2 := fr2 j hj1
          rw [getD_set]
          rw [if_neg ?_, f2, f1]
          intro hc
          rcases hc with ⟨hij, _⟩
          rw [hij] at hv
          exact hv hj
        · have harg : n.toNat - 1 = (n - 1).toNat := by omega
          rw [harg, hread, hsum]
          exact specFib_pos _ (by omega)

/-- Frame property of the memoized recursion on an arbitrary cache: a
successful call never changes the length and never changes a slot that was
already positive (every write targets a slot whose hit test just failed,
i.e. a slot holding a value `≤ 0`). -/
theorem memoF_frame : ∀ (fuel : Nat) (n : Int) (m : List Int) (v : Int) (m' : List Int),
    fibonacciMemoF fuel n m = some (v, m') →
    m'.length = m.length ∧ ∀ j : Nat, 0 < m.getD j 0 → m'.getD j 0 = m.getD j 0 := by
  intro fuel
  induction fuel with
  | zero => intro n m v m' h; exact Option.noConfusion h
  | succ f ih =>
    intro n m v m' h
    rw [fibonacciMemoF] at h
    by_cases hidx : 0 ≤ n - 1 ∧ (n - 1).toNat < m.length
    · rw [if_pos hidx] at h
      by_cases hv : 0 < m.getD (n - 1).toNat 0
      · rw [if_pos hv] at h
        injection h with h2
        injection h2 with e1 e2
        rw [← e2]
        exact ⟨rfl, fun j _ => rfl⟩
      · rw [if_neg hv] at h
        by_cases hb : n ≤ 2 ∧ 0 < n
        · rw [if_pos hb] at h
          injection h with h2
          injection h2 with e1 e2
          rw [← e2]
          refine ⟨List.length_set .., ?_⟩
          intro j hj
          rw [getD_set,
            if_neg (fun hc : (n - 1).toNat = j ∧ j < m.length => hv (hc.1 ▸ hj))]
        · rw [if_neg hb] at h
          cases e1 : fibonacciMemoF f (n - 1) m with
          | none => rw [e1, Option.none_bind] at h; exact Option.noConfusion h
          | some r1 =>
            simp only [e1, Option.some_bind] at h
            cases e2 : fibonacciMemoF f (n - 2) r1.2 with
            | none => rw [e2, Option.none_bind] at h; exact Option.noConfusion h
            | some r2 =>
              simp only [e2, Option.some_bind] at h
              by_cases h3 : (n - 1).toNat < (r2.2.set (n - 1).toNat (r1.1 + r2.1)).length
              · rw [if_pos h3] at h
                injection h with h2
                injection h2 with e3 e4
                obtain ⟨l1, f1⟩ := ih (n - 1) m r1.1 r1.2 e1
                obtain ⟨l2, f2⟩ := ih (n - 2) r1.2 r2.1 r2.2 e2
                rw [← e4]
                constructor
                · rw [List.length_set, l2, l1]
                · intro j hj
                  have g1 := f1 j hj
                  have hj1 : 0 < r1.2.getD j 0 := by rw [g1]; exact hj
                  have g2 := f2 j hj1
                  rw [getD_set,
                    if_neg (fun hc : (n - 1).toNat = j ∧ j < r2.2.length => hv (hc.1 ▸ hj)),
                    g2, g1]
              · rw [if_neg h3] at h
                exact Option.noConfusion h
    · rw [if_neg hidx] at h
      exact Option.noConfusion h

/-- The constexpr variant computes exactly the same function as the
memoized variant: its guard `n <= 2` is only ever evaluated after the
bounds check has established `n ≥ 1`, where the two guards agree. -/
theorem fibonacciCF_eq_memoF : ∀ (fuel : Nat) (n : Int) (memo : List Int),
    fibonacciCF fuel n memo = fibonacciMemoF fuel n memo := by
  intro fuel
  induction fuel with
  | zero => intro n memo; rfl
  | succ f ih =>
    intro n memo
    rw [fibonacciCF, fibonacciMemoF]
    by_cases hidx : 0 ≤ n - 1 ∧ (n - 1).toNat < memo.length
    · rw [if_pos hidx, if_pos hidx]
      by_cases hv : 0 < memo.getD (n - 1).toNat 0
      · rw [if_pos hv, if_pos hv]
      · rw [if_neg hv, if_neg hv]
        by_cases h2 : n ≤ 2
        · rw [if_pos h2, if_pos ⟨h2, by omega⟩]
        · rw [if_neg h2, if_neg (fun hc : n ≤ 2 ∧ 0 < n => h2 hc.1)]
          simp only [ih]
    · rw [if_neg hidx, if_neg hidx]

theorem fibonacciC_eq_memo (n : Int) (memo : List Int) :
    fibonacciC n memo = fibonacciMemo n memo :=
  fibonacciCF_eq_memoF (n.toNat + 1) n memo

/-- The naive variant computes the true Fibonacci numbers on `n ≥ 1`. -/
theorem fibonacciF_correct : ∀ (fuel : Nat) (n : Int), n.toNat ≤ fuel → 1 ≤ n →
    fibonacciF fuel n = specFib n.toNat := by
  intro fuel
  induction fuel with
  | zero => intro n h h1; omega
  | succ f ih =>
    intro n h h1
    rw [fibonacciF]
    by_cases h2 : n ≤ 2
    · rw [if_pos h2]
      have ht : n.toNat = 1 ∨ n.toNat = 2 := by omega
      rcases ht with ht | ht <;> rw [ht] <;> decide
    · rw [if_neg h2, ih (n - 1) (by omega) (by omega), ih (n - 2) (by omega) (by omega)]
      obtain ⟨k, hk⟩ : ∃ k, n.toNat = k + 2 := ⟨n.toNat - 2, by omega⟩
      have a1 : (n - 1).toNat = k + 1 := by omega
      have a2 : (n - 2).toNat = k := by omega
      rw [a1, a2, hk, specFib_add_two]

theorem naive_correct (n : Int) (h1 : 1 ≤ n) : fibonacci n = specFib n.toNat :=
  fibonacciF_correct n.toNat n (le_refl _) h1

theorem naive_base (n : Int) (h : n ≤ 2) : fibonacci n = 1 := by
  rcases le_or_lt n 0 with h0 | h0
  · have ht : n.toNat = 0 := by omega
    rw [fibonacci, ht]
    rfl
  · obtain ⟨k, hk⟩ : ∃ k, n.toNat = k + 1 := ⟨n.toNat - 1, by omega⟩
    rw [fibonacci, hk, fibonacciF, if_pos h]

theorem calls_base (n : Int) (h : n ≤ 2) : fibonacciCalls n = 0 := by
  rcases le_or_lt n 0 with h0 | h0
  · have ht : n.toNat = 0 := by omega
    rw [fibonacciCalls, ht]
    rfl
  · obtain ⟨k, hk⟩ : ∃ k, n.toNat = k + 1 := ⟨n.toNat - 1, by omega⟩
    rw [fibonacciCalls, hk, fibonacciCallsF, if_pos h]

/-- Every reachable cache is consistent. -/
theorem cacheReachable_consistent (m : List Int) (hm : CacheReachable m) :
    CacheConsistent m := by
  induction hm with
  | init cap => exact cacheConsistent_replicate cap
  | stepMemo n m m' v hm h1 h2 hc ih =>
    obtain ⟨m'', e, _, hcons, _, _⟩ := memoF_correct (n.toNat + 1) n m (by omega) ih h1 h2
    rw [fibonacciMemo, e] at hc
    injection hc with hc2
    injection hc2 with _ hmem
    rw [← hmem]
    exact hcons
  | stepC n m m' v hm h1 h2 hc ih =>
    obtain ⟨m'', e, _, hcons, _, _⟩ := memoF_correct (n.toNat + 1) n m (by omega) ih h1 h2
    rw [fibonacciC_eq_memo, fibonacciMemo, e] at hc
    injection hc with hc2
    injection hc2 with _ hmem
    rw [← hmem]
    exact hcons

theorem specFib_12 (t : Nat) (h : t = 1 ∨ t = 2) : specFib t = 1 := by
  rcases h with rfl | rfl <;> decide

/-- A call whose hit test succeeds returns the cached value and leaves the
cache untouched. -/
theorem memoF_hit (fuel : Nat) (n : Int) (memo : List Int) (hf : 0 < fuel)
    (h0 : 0 ≤ n - 1) (hlen : (n - 1).toNat < memo.length)
    (hv : 0 < memo.getD (n - 1).toNat 0) :
    fibonacciMemoF fuel n memo = some (memo.getD (n - 1).toNat 0, memo) := by
  cases fuel with
  | zero => omega
  | succ f => rw [fibonacciMemoF, if_pos ⟨h0, hlen⟩, if_pos hv]

/-- A call at `n = 1` or `n = 2` on an unfilled slot takes the base case. -/
theorem memoF_12 (fuel : Nat) (n : Int) (memo : List Int) (hf : n.toNat < fuel)
    (hn : n = 1 ∨ n = 2) (hlen : (n - 1).toNat < memo.length)
    (hv : memo.getD (n - 1).toNat 0 ≤ 0) :
    fibonacciMemoF fuel n memo = some (1, memo.set (n - 1).toNat 1) := by
  cases fuel with
  | zero => rcases hn with rfl | rfl <;> omega
  | succ f =>
    rw [fibonacciMemoF, if_pos ⟨by rcases hn with rfl | rfl <;> norm_num, hlen⟩,
      if_neg (by omega), if_pos ⟨by rcases hn with rfl | rfl <;> norm_num,
        by rcases hn with rfl | rfl <;> norm_num⟩]

/-- Running either memoized variant at `n` on a fresh all-zero cache fills
exactly the slots of the recurrence chain: for `n ≥ 3` all slots below `n`,
for `n ≤ 2` only slot `n - 1`, each with the true Fibonacci value. -/
theorem memoF_fresh : ∀ (fuel : Nat) (n : Int) (cap : Nat),
    1 ≤ n → n ≤ (cap : Int) → n.toNat < fuel →
    ∃ m', fibonacciMemoF fuel n (List.replicate cap 0) = some (specFib n.toNat, m') ∧
      m'.length = cap ∧
      ∀ j : Nat, m'.getD j 0 =
        if (3 ≤ n ∧ (j : Int) < n) ∨ (n ≤ 2 ∧ (j : Int) + 1 = n) then specFib (j + 1)
        else 0 := by
  intro fuel
  induction fuel with
  | zero => intro n cap h1 hcap hf; omega
  | succ f ih =>
    intro n cap h1 hcap hf
    by_cases hb : n ≤ 2
    · have e := memoF_12 (f + 1) n (List.replicate cap 0) hf (by omega)
        (by rw [List.length_replicate]; omega) (by rw [getD_replicate0])
      refine ⟨(List.replicate cap 0).set (n - 1).toNat 1, ?_, ?_, ?_⟩
      · rw [e, specFib_12 n.toNat (by omega)]
      · rw [List.length_set, List.length_replicate]
      · intro j
        rw [getD_set, getD_replicate0, List.length_replicate]
        by_cases hj : (n - 1).toNat = j
        · rw [if_pos ⟨hj, by omega⟩, if_pos (Or.inr ⟨hb, by omega⟩),
            show j + 1 = n.toNat by omega, specFib_12 n.toNat (by omega)]
        · rw [if_neg (fun hc => hj hc.1), if_neg (by omega)]
    · have h3 : 3 ≤ n := by omega
      have hidx : 0 ≤ n - 1 ∧ (n - 1).toNat < (List.replicate cap (0 : Int)).length := by
        rw [List.length_replicate]
        omega
      rw [fibonacciMemoF, if_pos hidx, getD_replicate0, if_neg (by omega),
        if_neg (fun hc : n ≤ 2 ∧ 0 < n => hb hc.1)]
      obtain ⟨m1, e1, len1, char1⟩ := ih (n - 1) cap (by omega) (by omega) (by omega)
      rw [e1, Option.some_bind]
      simp only
      by_cases h4 : 3 ≤ n - 1
      · -- n ≥ 4: the second recursive call is a pure cache hit
        have hval2 : m1.getD ((n - 2) - 1).toNat 0 = specFib ((n - 2) - 1).toNat.succ := by
          rw [char1 ((n - 2) - 1).toNat, if_pos (Or.inl ⟨h4, by omega⟩)]
        have e2 := memoF_hit f (n - 2) m1 (by omega) (by omega)
          (by rw [len1]; omega) (by rw [hval2]; exact specFib_pos _ (by omega))
        rw [e2, Option.some_bind]
        simp only
        have hlen3 : ((n - 1)).toNat <
            (m1.set (n - 1).toNat (specFib (n - 1).toNat + m1.getD ((n - 2) - 1).toNat 0)).length := by
          rw [List.length_set, len1]
          omega
        rw [if_pos hlen3]
        have hsum : specFib (n - 1).toNat + m1.getD ((n - 2) - 1).toNat 0 = specFib n.toNat := by
          rw [hval2]
          obtain ⟨k, hk⟩ : ∃ k, n.toNat = k + 2 := ⟨n.toNat - 2, by omega⟩
          have a1 : (n - 1).toNat = k + 1 := by omega
          have a2 : ((n - 2) - 1).toNat.succ = k := by omega
          rw [a1, a2, hk, specFib_add_two]
        have hread : (m1.set (n - 1).toNat
            (specFib (n - 1).toNat + m1.getD ((n - 2) - 1).toNat 0)).getD (n - 1).toNat 0 =
            specFib (n - 1).toNat + m1.getD ((n - 2) - 1).toNat 0 := by
          rw [getD_set, if_pos ⟨rfl, by rw [len1]; omega⟩]
        refine ⟨_, by rw [hread, hsum], by rw [List.length_set, len1], ?_⟩
        intro j
        rw [getD_set]
        by_cases hj : (n - 1).toNat = j ∧ j < m1.length
        · rw [if_pos hj, if_pos (Or.inl ⟨h3, by omega⟩), show j + 1 = n.toNat from by omega]
        · rw [if_neg hj, char1 j]
          have hcond : ((3 ≤ n - 1 ∧ (j : Int) < n - 1) ∨ (n - 1 ≤ 2 ∧ (j : Int) + 1 = n - 1)) ↔
              ((3 ≤ n ∧ (j : Int) < n) ∨ (n ≤ 2 ∧ (j : Int) + 1 = n)) := by
            rw [len1] at hj
            omega
          simp only [hcond]
      · -- n = 3: the second recursive call takes the base case at 1
        have hn3 : n = 3 := by omega
        subst hn3
        rw [show (3 : Int) - 2 = 1 from by decide,
          show ((3 : Int) - 1).toNat = 2 from by decide,
          show Int.toNat 3 = 3 from by decide]
        have hm1z : m1.getD 0 0 = 0 := by
          rw [char1 0, if_neg (by omega)]
        have e2 := memoF_12 f 1 m1 (by omega) (Or.inl rfl)
          (by rw [show ((1 : Int) - 1).toNat = 0 from by decide, len1]; omega)
          (by rw [show ((1 : Int) - 1).toNat = 0 from by decide, hm1z])
        rw [show ((1 : Int) - 1).toNat = 0 from by decide] at e2
        rw [e2, Option.some_bind]
        simp only
        have hlen3 : 2 < ((m1.set 0 1).set 2 (specFib 2 + 1)).length := by
          rw [List.length_set, List.length_set, len1]
          omega
        rw [if_pos hlen3]
        have hread : ((m1.set 0 1).set 2 (specFib 2 + 1)).getD 2 0 = specFib 2 + 1 := by
          rw [getD_set, if_pos ⟨rfl, by rw [List.length_set, len1]; omega⟩]
        have hsum : specFib 2 + 1 = specFib 3 := by decide
        refine ⟨_, by rw [hread, hsum], by rw [List.length_set, List.length_set, len1], ?_⟩
        intro j
        rw [getD_set, getD_set, char1 j]
        rcases j with _ | _ | _ | j
        · rw [if_neg (by omega), if_pos ⟨rfl, by rw [len1]; omega⟩, if_pos (by omega)]
          decide
        · rw [if_neg (by omega), if_neg (by omega), if_pos (by omega), if_pos (by omega)]
        · rw [if_pos ⟨rfl, by rw [List.length_set, len1]; omega⟩, if_pos (by omega)]
        · rw [if_neg (by omega), if_neg (by omega), if_neg (by omega), if_neg (by omega)]

theorem mem_recChain : ∀ (t : Nat), 3 ≤ t → ∀ (j : Nat),
    (j ∈ recChain t ↔ 1 ≤ j ∧ j ≤ t) := by
  intro t
  induction t using Nat.strong_induction_on with
  | _ t ih =>
    intro h3 j
    obtain ⟨k, rfl⟩ : ∃ k, t = k + 3 := ⟨t - 3, by omega⟩
    rw [show recChain (k + 3) = (k + 3) :: (recChain (k + 2) ++ recChain (k + 1)) from rfl]
    rcases k with _ | _ | k
    · simp only [show recChain 2 = [2] from rfl, show recChain 1 = [1] from rfl,
        List.mem_cons, List.mem_append, List.mem_singleton, List.not_mem_nil, or_false]
      omega
    · rw [List.mem_cons, List.mem_append, ih 3 (by omega) (by omega) j,
        show recChain 2 = [2] from rfl, List.mem_singleton]
      omega
    · rw [List.mem_cons, List.mem_append, ih (k + 4) (by omega) (by omega) j,
        ih (k + 3) (by omega) (by omega) j]
      omega

theorem mem_recChain_12 (t j : Nat) (h : t = 1 ∨ t = 2) :
    j ∈ recChain t ↔ j = t := by
  rcases h with rfl | rfl
  · rw [show recChain 1 = [1] from rfl, List.mem_singleton]
  · rw [show recChain 2 = [2] from rfl, List.mem_singleton]

/-- At `n = 1` or `n = 2` the instrumented memoized variant either errors on
an out-of-range cache, returns via the cache hit, or returns via the base
case: the recursive branch is never entered. -/
theorem memoTF_12 (fuel : Nat) (n : Int) (memo : List Int) (hn : n = 1 ∨ n = 2)
    (hf : n.toNat < fuel) :
    fibonacciMemoTF fuel n memo =
      if (n - 1).toNat < memo.length then
        if 0 < memo.getD (n - 1).toNat 0 then
          (some (memo.getD (n - 1).toNat 0, memo),
            [FibEvent.hitRead (n - 1), FibEvent.hitReturn (n - 1)])
        else
          (some (1, memo.set (n - 1).toNat 1),
            [FibEvent.hitRead (n - 1), FibEvent.guardTest n, FibEvent.baseWrite (n - 1)])
      else (none, [FibEvent.oobRead (n - 1)]) := by
  cases fuel with
  | zero => rcases hn with rfl | rfl <;> omega
  | succ f =>
    rw [fibonacciMemoTF]
    by_cases hlen : (n - 1).toNat < memo.length
    · rw [if_pos ⟨by rcases hn with rfl | rfl <;> decide, hlen⟩, if_pos hlen]
      by_cases hv : 0 < memo.getD (n - 1).toNat 0
      · rw [if_pos hv, if_pos hv]
      · rw [if_neg hv, if_neg hv,
          if_pos (show n ≤ 2 ∧ 0 < n by rcases hn with rfl | rfl <;> decide)]
    · rw [if_neg (fun hc : 0 ≤ n - 1 ∧ (n - 1).toNat < memo.length => hlen hc.2),
        if_neg hlen]

/-- Same characterization for the instrumented constexpr variant. -/
theorem cTF_12 (fuel : Nat) (n : Int) (memo : List Int) (hn : n = 1 ∨ n = 2)
    (hf : n.toNat < fuel) :
    fibonacciCTF fuel n memo =
      if (n - 1).toNat < memo.length then
        if 0 < memo.getD (n - 1).toNat 0 then
          (some (memo.getD (n - 1).toNat 0, memo),
            [FibEvent.hitRead (n - 1), FibEvent.hitReturn (n - 1)])
        else
          (some (1, memo.set (n - 1).toNat 1),
            [FibEvent.hitRead (n - 1), FibEvent.guardTest n, FibEvent.baseWrite (n - 1)])
      else (none, [FibEvent.oobRead (n - 1)]) := by
  cases fuel with
  | zero => rcases hn with rfl | rfl <;> omega
  | succ f =>
    rw [fibonacciCTF]
    by_cases hlen : (n - 1).toNat < memo.length
    · rw [if_pos ⟨by rcases hn with rfl | rfl <;> decide, hlen⟩, if_pos hlen]
      by_cases hv : 0 < memo.getD (n - 1).toNat 0
      · rw [if_pos hv, if_pos hv]
      · rw [if_neg hv, if_neg hv,
          if_pos (show n ≤ 2 by rcases hn with rfl | rfl <;> decide)]
    · rw [if_neg (fun hc : 0 ≤ n - 1 ∧ (n - 1).toNat < memo.length => hlen hc.2),
        if_neg hlen]

theorem mainStep3_eq : fibonacciMemo fibN memoA0 = some (mainR3, mainMemo1) := rfl

theorem mainStep4_eq : fibonacciC fibN mainMemo1 = some (mainR4, mainMemo1) := rfl

/-- The driver's output, line by line: the labels of the three result lines
are `fibonacci`, `fibonacci<array>` and `fibonacci<array, constexpr>`, each
block ends with a blank line (also the last one). -/
theorem mainLines_eq (d1 d2 d3 : Int) :
    mainLines d1 d2 d3 = some
      ["fibonacci(" ++ toString fibN ++ ") = " ++ toString mainR1,
       "time = " ++ toString d1 ++ " us", "",
       "fibonacci<array>(" ++ toString fibN ++ ") = " ++ toString mainR3,
       "time = " ++ toString d2 ++ " us", "",
       "fibonacci<array, constexpr>(" ++ toString fibN ++ ") = " ++ toString mainR4,
       "time = " ++ toString d3 ++ " us", ""] := by
  unfold mainLines
  rw [mainStep3_eq, Option.some_bind]
  simp only
  rw [mainStep4_eq, Option.some_bind]

/-- Two character lists with the distinct literal prefixes
`fibonacci<array>(` and `fibonacci(` differ (they disagree at index 9). -/
theorem label_data_ne (x y : List Char) :
    "fibonacci<array>(".data ++ x ≠ "fibonacci(".data ++ y := by
  intro h
  have h9 := congrArg (fun l => l[9]?) h
  simp only at h9
  rw [List.getElem?_append_left (by decide), List.getElem?_append_left (by decide)] at h9
  exact absurd h9 (by decide)

/-- C1: for every n with 1 ≤ n ≤ 30, the naive recursive variant, the
memoized variant on a fresh all-zero cache of capacity ≥ n, and the
constexpr memoized variant on a fresh all-zero cache of capacity ≥ n all
return the same value. -/
theorem cross_variant_equivalence (n : Int) (cap : Nat)
    (h1 : 1 ≤ n) (h30 : n ≤ 30) (hcap : n ≤ (cap : Int)) :
    ∃ m1 m2, fibonacciMemo n (List.replicate cap 0) = some (fibonacci n, m1) ∧
      fibonacciC n (List.replicate cap 0) = some (fibonacci n, m2) := by
  obtain ⟨m', e, _, _, _, _⟩ := memoF_correct (n.toNat + 1) n (List.replicate cap 0)
    (by omega) (cacheConsistent_replicate cap)
    h1 (by rw [List.length_replicate]; exact hcap)
  rw [naive_correct n h1]
  exact ⟨m', m', e, by rw [fibonacciC_eq_memo]; exact e⟩

theorem cross_variant_equivalence_witness :
    (1 : Int) ≤ 10 ∧ (10 : Int) ≤ 30 ∧ (10 : Int) ≤ ((10 : Nat) : Int) ∧
      ∃ m1 m2, fibonacciMemo 10 (List.replicate 10 0) = some (fibonacci 10, m1) ∧
        fibonacciC 10 (List.replicate 10 0) = some (fibonacci 10, m2) :=
  ⟨by decide, by decide, by decide,
    cross_variant_equivalence 10 10 (by decide) (by decide) (by decide)⟩

/-- C2: in every cache state reachable by any sequence of memoized calls
(either variant) with valid indices 1 ≤ n ≤ capacity starting from an
all-zero cache, every filled (non-zero) slot at position i = n - 1 holds the
true nth Fibonacci number (fib(1) = fib(2) = 1 convention). -/
theorem reachable_cache_invariant (m : List Int) (hm : CacheReachable m)
    (i : Nat) (hnz : m.getD i 0 ≠ 0) : m.getD i 0 = specFib (i + 1) := by
  have hc := cacheReachable_consistent m hm i
  exact hc.2 (by omega)

theorem reachable_cache_invariant_witness :
    CacheReachable [1, 1, 2] ∧ ([1, 1, 2] : List Int).getD 2 0 ≠ 0 ∧
      ([1, 1, 2] : List Int).getD 2 0 = specFib (2 + 1) := by
  have hr : CacheReachable [1, 1, 2] :=
    CacheReachable.stepMemo 3 (List.replicate 3 0) [1, 1, 2] 2 (CacheReachable.init 3)
      (by decide) (by decide) (by decide)
  exact ⟨hr, by decide, reachable_cache_invariant [1, 1, 2] hr 2 (by decide)⟩

/-- C3 counterexample: at n = 0 (with a cache of capacity 3) the call's very
first action is the cache-hit read `memo[n - 1]` at index -1, which is
already out of bounds: the base-case guard is never evaluated and no
recursive call is made, so the call does not "pass the guard and fall
through to the recursive branch" as claimed. -/
theorem memo_nonpositive_guard_order_cex :
    (fibonacciMemoTrace 0 [0, 0, 0]).2 = [FibEvent.oobRead (-1)] ∧
    FibEvent.guardTest 0 ∉ (fibonacciMemoTrace 0 [0, 0, 0]).2 ∧
    ∀ a : Int, FibEvent.recCall a ∉ (fibonacciMemoTrace 0 [0, 0, 0]).2 := by
  refine ⟨by decide, by decide, ?_⟩
  intro a
  rw [show (fibonacciMemoTrace 0 [0, 0, 0]).2 = [FibEvent.oobRead (-1)] from by decide]
  simp

/-- C3 amended: for every n ≤ 0, a call of the memoized variant performs as
its first operation the cache-hit read at index n - 1, which is outside the
valid range [0, capacity-1]; the call therefore takes the out-of-bounds
error branch of the embedding at that first read, before the base-case
guard `n <= 2 && n > 0` is evaluated and before any recursive call. -/
theorem memo_nonpositive_oob_at_hit_read (n : Int) (memo : List Int) (hn : n ≤ 0) :
    fibonacciMemoTrace n memo = (none, [FibEvent.oobRead (n - 1)]) ∧
    fibonacciMemo n memo = none := by
  have ht : n.toNat = 0 := by omega
  constructor
  · rw [fibonacciMemoTrace, ht, fibonacciMemoTF, if_neg (by omega)]
  · rw [fibonacciMemo, ht, fibonacciMemoF, if_neg (by omega)]

theorem memo_nonpositive_oob_at_hit_read_witness :
    (0 : Int) ≤ 0 ∧
      (fibonacciMemoTrace 0 [0, 0, 0] = (none, [FibEvent.oobRead (0 - 1)]) ∧
        fibonacciMemo 0 [0, 0, 0] = none) :=
  ⟨by decide, memo_nonpositive_oob_at_hit_read 0 [0, 0, 0] (by decide)⟩

/-- C4: after the memoized variant returns on an initially all-zero cache of
capacity ≥ n, every slot j - 1 with j in the recurrence chain of n is filled
with the correct Fibonacci value — the cache is fully warmed, not only at
slot n - 1. -/
theorem memo_fresh_cache_warmup (n : Int) (cap : Nat)
    (h1 : 1 ≤ n) (hcap : n ≤ (cap : Int)) :
    ∃ v m', fibonacciMemo n (List.replicate cap 0) = some (v, m') ∧ m'.length = cap ∧
      ∀ j ∈ recChain n.toNat, 0 < m'.getD (j - 1) 0 ∧ m'.getD (j - 1) 0 = specFib j := by
  obtain ⟨m', e, hlen, char⟩ := memoF_fresh (n.toNat + 1) n cap h1 hcap (by omega)
  refine ⟨specFib n.toNat, m', e, hlen, ?_⟩
  intro j hj
  by_cases h3 : 3 ≤ n
  · rw [mem_recChain n.toNat (by omega) j] at hj
    have hchar := char (j - 1)
    rw [if_pos (Or.inl ⟨h3, by omega⟩)] at hchar
    rw [hchar, show j - 1 + 1 = j from by omega]
    exact ⟨specFib_pos j (by omega), rfl⟩
  · rw [mem_recChain_12 n.toNat j (by omega)] at hj
    subst hj
    have hchar := char (n.toNat - 1)
    rw [if_pos (Or.inr ⟨by omega, by omega⟩)] at hchar
    rw [hchar, show n.toNat - 1 + 1 = n.toNat from by omega]
    exact ⟨specFib_pos _ (by omega), rfl⟩

theorem memo_fresh_cache_warmup_witness :
    (1 : Int) ≤ 4 ∧ (4 : Int) ≤ ((5 : Nat) : Int) ∧
      ∃ v m', fibonacciMemo 4 (List.replicate 5 0) = some (v, m') ∧ m'.length = 5 ∧
        ∀ j ∈ recChain (4 : Int).toNat, 0 < m'.getD (j - 1) 0 ∧ m'.getD (j - 1) 0 = specFib j :=
  ⟨by decide, by decide, memo_fresh_cache_warmup 4 5 (by decide) (by decide)⟩

/-- C5: on a cache already populated up to n (all slots below n filled),
calling the memoized variant returns the cached value with the cache
entirely unchanged, and a second call in succession returns the identical
value, again without altering any slot. -/
theorem memo_idempotent_on_populated_cache (n : Int) (m : List Int)
    (h1 : 1 ≤ n) (h2 : n ≤ (m.length : Int))
    (hpop : ∀ j : Nat, j < n.toNat → 0 < m.getD j 0) :
    ∃ v, fibonacciMemo n m = some (v, m) ∧
      ∀ v' m', fibonacciMemo n m = some (v', m') → fibonacciMemo n m' = some (v', m') := by
  have hv : 0 < m.getD (n - 1).toNat 0 := hpop (n - 1).toNat (by omega)
  have e := memoF_hit (n.toNat + 1) n m (by omega) (by omega) (by omega) hv
  refine ⟨m.getD (n - 1).toNat 0, e, ?_⟩
  intro v' m' h
  rw [fibonacciMemo] at h
  rw [e] at h
  injection h with h2'
  injection h2' with e1 e2
  rw [← e1, ← e2]
  exact e

theorem memo_idempotent_on_populated_cache_witness :
    (1 : Int) ≤ 2 ∧ (2 : Int) ≤ (([1, 1] : List Int).length : Int) ∧
      (∀ j : Nat, j < (2 : Int).toNat → 0 < ([1, 1] : List Int).getD j 0) ∧
      ∃ v, fibonacciMemo 2 [1, 1] = some (v, [1, 1]) ∧
        ∀ v' m', fibonacciMemo 2 [1, 1] = some (v', m') →
          fibonacciMemo 2 m' = some (v', m') := by
  have hpop : ∀ j : Nat, j < (2 : Int).toNat → 0 < ([1, 1] : List Int).getD j 0 := by
    intro j hj
    have hj' : j = 0 ∨ j = 1 := by omega
    rcases hj' with rfl | rfl <;> decide
  exact ⟨by decide, by decide, hpop,
    memo_idempotent_on_populated_cache 2 [1, 1] (by decide) (by decide) hpop⟩

/-- C6 counterexample: with n = 1 on the single-slot cache [-5] (so
1 ≤ n ≤ capacity), slot 0 is non-zero before the call but holds a different
value afterwards: the hit test `memo[n - 1] > 0` treats a negative slot as
unfilled and the base case overwrites it, so "non-zero" slots are not
preserved in general — only positive ones are. -/
theorem memo_nonzero_slot_overwritten_cex :
    fibonacciMemo 1 [-5] = some (1, [1]) ∧ ([-5] : List Int).getD 0 0 ≠ 0 ∧
      ([1] : List Int).getD 0 0 ≠ ([-5] : List Int).getD 0 0 := by decide

/-- C6 amended: for every single invocation of either memoized variant with
1 ≤ n ≤ capacity, every cache slot that is positive (filled, per the code's
own `> 0` hit test) before the call holds the same value after the call
returns: values once written are never changed, which is what makes the
driver's sequential reuse of one cache for both memoized variants safe. -/
theorem memo_positive_slots_preserved (n : Int) (m : List Int)
    (h1 : 1 ≤ n) (h2 : n ≤ (m.length : Int)) :
    (∀ v m', fibonacciMemo n m = some (v, m') →
      m'.length = m.length ∧ ∀ j : Nat, 0 < m.getD j 0 → m'.getD j 0 = m.getD j 0) ∧
    (∀ v m', fibonacciC n m = some (v, m') →
      m'.length = m.length ∧ ∀ j : Nat, 0 < m.getD j 0 → m'.getD j 0 = m.getD j 0) := by
  constructor
  · intro v m' h
    exact memoF_frame (n.toNat + 1) n m v m' h
  · intro v m' h
    rw [fibonacciC_eq_memo] at h
    exact memoF_frame (n.toNat + 1) n m v m' h

theorem memo_positive_slots_preserved_witness :
    (1 : Int) ≤ 1 ∧ (1 : Int) ≤ (([0, 5] : List Int).length : Int) ∧
      ([1, 5] : List Int).length = ([0, 5] : List Int).length ∧
      ([1, 5] : List Int).getD 1 0 = ([0, 5] : List Int).getD 1 0 :=
  ⟨by decide, by decide,
    ((memo_positive_slots_preserved 1 [0, 5] (by decide) (by decide)).1 1 [1, 5]
      (by decide)).1,
    ((memo_positive_slots_preserved 1 [0, 5] (by decide) (by decide)).1 1 [1, 5]
      (by decide)).2 1 (by decide)⟩

/-- C7: each of the three variants returns fib(1)=1, fib(2)=1, fib(3)=2,
fib(10)=55 and fib(20)=6765 (the memoized variants on fresh all-zero caches
of sufficient capacity). -/
theorem known_values_all_variants :
    (fibonacci 1 = 1 ∧ fibonacci 2 = 1 ∧ fibonacci 3 = 2 ∧
      fibonacci 10 = 55 ∧ fibonacci 20 = 6765) ∧
    ((fibonacciMemo 1 (List.replicate 1 0)).map Prod.fst = some 1 ∧
      (fibonacciMemo 2 (List.replicate 2 0)).map Prod.fst = some 1 ∧
      (fibonacciMemo 3 (List.replicate 3 0)).map Prod.fst = some 2 ∧
      (fibonacciMemo 10 (List.replicate 10 0)).map Prod.fst = some 55 ∧
      (fibonacciMemo 20 (List.replicate 20 0)).map Prod.fst = some 6765) ∧
    ((fibonacciC 1 (List.replicate 1 0)).map Prod.fst = some 1 ∧
      (fibonacciC 2 (List.replicate 2 0)).map Prod.fst = some 1 ∧
      (fibonacciC 3 (List.replicate 3 0)).map Prod.fst = some 2 ∧
      (fibonacciC 10 (List.replicate 10 0)).map Prod.fst = some 55 ∧
      (fibonacciC 20 (List.replicate 20 0)).map Prod.fst = some 6765) := by
  refine ⟨⟨?_, ?_, ?_, ?_, ?_⟩, by decide, by decide⟩
  · rw [naive_correct 1 (by decide)]; decide
  · rw [naive_correct 2 (by decide)]; decide
  · rw [naive_correct 3 (by decide)]; decide
  · rw [naive_correct 10 (by decide)]; decide
  · rw [naive_correct 20 (by decide)]; decide

/-- C8: for n = 1 and n = 2 no variant takes its recursive branch: the
naive variant returns 1 from its base case making no recursive call, and on
any cache state the two memoized variants behave identically, never emit a
recursive-call event, and (whenever the cache has capacity ≥ n, the data
model's valid domain) return either via the cache hit or via the base
case. -/
theorem boundary_no_recursive_branch (n : Int) (memo : List Int) (hn : n = 1 ∨ n = 2) :
    fibonacci n = 1 ∧ fibonacciCalls n = 0 ∧
    fibonacciCTrace n memo = fibonacciMemoTrace n memo ∧
    (∀ a : Int, FibEvent.recCall a ∉ (fibonacciMemoTrace n memo).2) ∧
    (n.toNat ≤ memo.length →
      ∃ e, (fibonacciMemoTrace n memo).2.getLast? = some e ∧
        (e = FibEvent.hitReturn (n - 1) ∨ e = FibEvent.baseWrite (n - 1))) := by
  have hb2 : n ≤ 2 := by rcases hn with rfl | rfl <;> decide
  have hfuel : n.toNat < n.toNat + 1 := by omega
  have hM := memoTF_12 (n.toNat + 1) n memo hn hfuel
  have hC := cTF_12 (n.toNat + 1) n memo hn hfuel
  refine ⟨naive_base n hb2, calls_base n hb2, ?_, ?_, ?_⟩
  · show fibonacciCTF (n.toNat + 1) n memo = fibonacciMemoTF (n.toNat + 1) n memo
    rw [hM, hC]
  · intro a
    show FibEvent.recCall a ∉ (fibonacciMemoTF (n.toNat + 1) n memo).2
    rw [hM]
    by_cases hlen : (n - 1).toNat < memo.length
    · rw [if_pos hlen]
      by_cases hv : 0 < memo.getD (n - 1).toNat 0
      · rw [if_pos hv]
        simp
      · rw [if_neg hv]
        simp
    · rw [if_neg hlen]
      simp
  · intro hcap
    have hlen : (n - 1).toNat < memo.length := by
      rcases hn with rfl | rfl <;> omega
    show ∃ e, (fibonacciMemoTF (n.toNat + 1) n memo).2.getLast? = some e ∧
      (e = FibEvent.hitReturn (n - 1) ∨ e = FibEvent.baseWrite (n - 1))
    rw [hM, if_pos hlen]
    by_cases hv : 0 < memo.getD (n - 1).toNat 0
    · rw [if_pos hv]
      exact ⟨FibEvent.hitReturn (n - 1), rfl, Or.inl rfl⟩
    · rw [if_neg hv]
      exact ⟨FibEvent.baseWrite (n - 1), rfl, Or.inr rfl⟩

theorem boundary_no_recursive_branch_witness :
    ((1 : Int) = 1 ∨ (1 : Int) = 2) ∧
      (fibonacci 1 = 1 ∧ fibonacciCalls 1 = 0 ∧
        fibonacciCTrace 1 [7] = fibonacciMemoTrace 1 [7] ∧
        (∀ a : Int, FibEvent.recCall a ∉ (fibonacciMemoTrace 1 [7]).2) ∧
        ((1 : Int).toNat ≤ ([7] : List Int).length →
          ∃ e, (fibonacciMemoTrace 1 [7]).2.getLast? = some e ∧
            (e = FibEvent.hitReturn (1 - 1) ∨ e = FibEvent.baseWrite (1 - 1)))) :=
  ⟨Or.inl rfl, boundary_no_recursive_branch 1 [7] (Or.inl rfl)⟩

/-- C9 counterexample: the driver's output has nine newline-terminated
lines, not six with separating blanks only, and its second result line is
labelled `fibonacci<array>(42)`, which is not of the claimed form
`fibonacci(<n>) = <value>` for any integers n and value (the labels differ
at character index 9). -/
theorem main_output_claimed_form_cex :
    (mainLines 0 0 0).map List.length = some 9 ∧
    (mainLines 0 0 0).map (fun l => l.getD 3 "") =
      some ("fibonacci<array>(" ++ toString fibN ++ ") = " ++ toString mainR3) ∧
    ∀ nv v : Int,
      "fibonacci<array>(" ++ toString fibN ++ ") = " ++ toString mainR3 ≠
        "fibonacci(" ++ toString nv ++ ") = " ++ toString v := by
  refine ⟨by rw [mainLines_eq]; rfl, by rw [mainLines_eq]; rfl, ?_⟩
  intro nv v h
  have hd := congrArg String.data h
  simp only [String.data_append, List.append_assoc] at hd
  exact label_data_ne _ _ hd

/-- C9 amended: the output consists of nine newline-terminated lines: for
each of the three variants a line `<label>(42) = <value>` whose labels are
`fibonacci`, `fibonacci<array>` and `fibonacci<array, constexpr>`
respectively, followed by a line `time = <microseconds> us`, each block
terminated by a blank line (including after the last block). -/
theorem main_output_exact (d1 d2 d3 : Int) :
    mainLines d1 d2 d3 = some
      ["fibonacci(" ++ toString fibN ++ ") = " ++ toString mainR1,
       "time = " ++ toString d1 ++ " us", "",
       "fibonacci<array>(" ++ toString fibN ++ ") = " ++ toString mainR3,
       "time = " ++ toString d2 ++ " us", "",
       "fibonacci<array, constexpr>(" ++ toString fibN ++ ") = " ++ toString mainR4,
       "time = " ++ toString d3 ++ " us", ""] :=
  mainLines_eq d1 d2 d3

/-- C10: for every integer n ≤ 2, including 0 and all negative n, the naive
variant returns 1 without making any recursive call (and, being a total
Lean function over a structural recursion, it terminates on every integer
input; its body contains no array access at all). -/
theorem naive_total_base_case (n : Int) (h : n ≤ 2) :
    fibonacci n = 1 ∧ fibonacciCalls n = 0 :=
  ⟨naive_base n h, calls_base n h⟩

theorem naive_total_base_case_witness :
    (-5 : Int) ≤ 2 ∧ (fibonacci (-5) = 1 ∧ fibonacciCalls (-5) = 0) :=
  ⟨by decide, naive_total_base_case (-5) (by decide)⟩
